import Mathlib

/-!
Verification of the auto-header configuration-resolution and header-reconciliation
engine (src/main.rs).  Rust strings are modelled as lists of characters, paths as
a flag (absolute or not) plus a list of components, filesystem effects as an
explicit oracle, and Rust panics as `Option.none`.
-/

set_option autoImplicit false

namespace AutoHeader

/-- A Rust string, modelled as its character sequence. -/
abbrev Str := List Char

/-- Rust `str::split(sep)` for a one-character separator: `"a\nb"` gives
`["a", "b"]`, the empty string gives `[""]`, a trailing separator yields a
trailing empty piece. -/
def strSplitChar (sep : Char) : Str → List Str
  | [] => [[]]
  | c :: rest =>
    if c = sep then [] :: strSplitChar sep rest
    else
      match strSplitChar sep rest with
      | [] => [[c]]
      | l :: ls => (c :: l) :: ls

/-- Rust `slice::join(sep)`: the pieces interleaved with the separator. -/
def strJoin (sep : Str) : List Str → Str
  | [] => []
  | [x] => x
  | x :: y :: ys => x ++ sep ++ strJoin sep (y :: ys)

/-- Rust `str::contains(needle)`: some index at which `needle` occurs. -/
def strContains (s needle : Str) : Bool :=
  (List.range (s.length + 1)).any (fun i => needle.isPrefixOf (s.drop i))

/-- Fueled worker for `strReplace`: leftmost non-overlapping replacement of a
non-empty pattern.  Each step consumes at least one character and one unit of
fuel, so fuel equal to the string length is always enough. -/
def strReplaceGo (pat rep : Str) : Nat → Str → Str
  | 0, s => s
  | _ + 1, [] => []
  | fuel + 1, c :: rest =>
    if pat.isPrefixOf (c :: rest) then
      rep ++ strReplaceGo pat rep fuel (rest.drop (pat.length - 1))
    else
      c :: strReplaceGo pat rep fuel rest

/-- Rust `str::replace(pat, rep)`: every occurrence of `pat`, scanned left to
right without overlap, is replaced by `rep`.  An empty pattern matches at every
character boundary, exactly as in Rust. -/
def strReplace (s pat rep : Str) : Str :=
  if pat = [] then rep ++ (s.map (fun c => c :: rep)).flatten
  else strReplaceGo pat rep s.length s

/-- A filesystem path: whether it is absolute, and its components. -/
structure FsPath where
  absolute : Bool
  comps : List Str
deriving DecidableEq

/-- Rust `Path::join`: an absolute argument replaces the base entirely. -/
def joinPath (base p : FsPath) : FsPath :=
  if p.absolute then p else ⟨base.absolute, base.comps ++ p.comps⟩

/-- Rust `Path::strip_prefix(base)`: drops a leading component run equal to
`base`, giving a relative remainder; errors (`none`) when `base` is not a
prefix of the path. -/
def stripBase (p base : FsPath) : Option FsPath :=
  if base.absolute = p.absolute ∧ base.comps <+: p.comps then
    some ⟨false, p.comps.drop base.comps.length⟩
  else none

/-- The `ConfigData` record of src/main.rs: identity data used to fill
templates, every field optional. -/
structure ConfigData where
  author : Option Str
  author_mail : Option Str
  cp_holders : Option Str
deriving DecidableEq

/-- `ConfigData::merge` of src/main.rs.  Each field is
`self.field.unwrap_or(default.field.clone().unwrap())`; the argument of
`unwrap_or` is evaluated eagerly in Rust, so the fallback field is unwrapped
even when the specific field is present.  The `unwrap` panic is modelled as
`none`. -/
def ConfigData.merge (s d : ConfigData) : Option ConfigData :=
  match d.author, d.author_mail, d.cp_holders with
  | some da, some dm, some dh =>
      some ⟨some (s.author.getD da), some (s.author_mail.getD dm),
            some (s.cp_holders.getD dh)⟩
  | _, _, _ => none

/-- The `Template` record of src/main.rs.  The Rust field `prefix` is called
`pfx` here because `prefix` is reserved in Lean. -/
structure Template where
  name : Str
  pfx : Option Str
  before : Option (List Str)
  after : Option (List Str)
  template : Option Str
  copyright_notice : Option Str
  track_changes : Option (List Str)
deriving DecidableEq

/-- `Template::merge` of src/main.rs: same eager `unwrap_or(....unwrap())`
shape as `ConfigData::merge` on the six mergeable fields; `name` is kept from
the specific template. -/
def Template.merge (s d : Template) : Option Template :=
  match d.pfx, d.before, d.after, d.template, d.copyright_notice,
        d.track_changes with
  | some dp, some db, some da, some dt, some dc, some dtr =>
      some ⟨s.name, some (s.pfx.getD dp), some (s.before.getD db),
            some (s.after.getD da), some (s.template.getD dt),
            some (s.copyright_notice.getD dc), some (s.track_changes.getD dtr)⟩
  | _, _, _, _, _, _ => none

/-- The `Project` record of src/main.rs.  The root is stored parsed as a path
(in Rust it is a string handed to `Path::new`). -/
structure Project where
  root : FsPath
  name : Option Str
  create : Option Bool
  update : Option Bool
  locale : Option Str
  data : Option ConfigData
deriving DecidableEq

/-- The `Config` record of src/main.rs (global configuration). -/
structure Config where
  create : Bool
  update : Bool
  language_strict : Bool
  locale : Str
  data : ConfigData
  default : Template
  language : Option (List Template)
  project : Option (List Project)
deriving DecidableEq

/-- The candidate directories of the ancestor walk in `find_project`: the
joined path itself, then each parent in turn, ending at the root of the
walk. -/
def ancestorPaths (p : FsPath) : List FsPath :=
  p.comps.inits.reverse.map (fun l => FsPath.mk p.absolute l)

/-- `find_project` of src/main.rs: join the argument path onto the current
directory, then walk parent directories starting from the joined path itself,
returning the first configured project whose root equals the current
candidate; `none` when the project list is empty or missing, or when the walk
reaches the filesystem root without a match.  The Rust `while` loop over
`Path::parent` is rendered as a search over the descending candidate list. -/
def find_project (cwd : FsPath) (config : Config) (path : FsPath) :
    Option Project :=
  if (config.project.getD []).isEmpty then none
  else
    (ancestorPaths (joinPath cwd path)).findSome?
      (fun cand => (config.project.getD []).find? (fun pr => pr.root == cand))

/-- Modelled from the claim's words for C5 only, to be compared with
`find_project`: the same walk, but starting at the file path's containing
directory instead of the file path itself. -/
def find_project_claim (cwd : FsPath) (config : Config) (path : FsPath) :
    Option Project :=
  if (config.project.getD []).isEmpty then none
  else
    (ancestorPaths ⟨(joinPath cwd path).absolute,
                    (joinPath cwd path).comps.dropLast⟩).findSome?
      (fun cand => (config.project.getD []).find? (fun pr => pr.root == cand))

/-- `get_language_config` of src/main.rs. -/
def get_language_config (config : Config) (language : Str) : Option Template :=
  match config.language with
  | none => some config.default
  | some ts =>
    match ts.find? (fun t => t.name == language) with
    | some t => some t
    | none => if !config.language_strict then some config.default else none

/-- The outcome of one invocation's decision logic in `main`: an early skip,
or the reconciliation action taken once the header check has run. -/
inductive MainAction
  | skipNoProject
  | skipForbidden
  | patchHeader
  | createHeader
  | nothingToDo
deriving DecidableEq

/-- The decision logic of `main` (src/main.rs lines 200-249): the early guard
consults the per-project overrides (`project.create.unwrap_or(config.create)`
and likewise for `update`), but the patch/create decision afterwards tests
only the global `config.update` / `config.create` flags. -/
def main_decision (config : Config) (project : Option Project)
    (header_present : Bool) : MainAction :=
  match project with
  | none => MainAction.skipNoProject
  | some prj =>
    if !(prj.create.getD config.create) && !(prj.update.getD config.update) then
      MainAction.skipForbidden
    else if header_present && config.update then MainAction.patchHeader
    else if (!header_present) && config.create then MainAction.createHeader
    else MainAction.nothingToDo

/-- A fully-populated identity record used in concrete instances. -/
def cdFullW : ConfigData :=
  ⟨some ("a".toList), some ("m".toList), some ("h".toList)⟩

/-- The identity record with every field absent. -/
def cdEmptyW : ConfigData := ⟨none, none, none⟩

/-- A second fully-populated identity record, used as fallback. -/
def cdFallbackW : ConfigData :=
  ⟨some ("x".toList), some ("y".toList), some ("z".toList)⟩

/-- A template with every mergeable field present. -/
def tplFullW : Template :=
  ⟨"rs".toList, some ("// ".toList), some [], some [], some ("b".toList),
   some ("c".toList), some []⟩

/-- A template with every mergeable field absent. -/
def tplEmptyW : Template := ⟨"*".toList, none, none, none, none, none, none⟩

/-- A second fully-populated template, used as fallback. -/
def tplFallbackW : Template :=
  ⟨"*".toList, some ("# ".toList), some [], some [], some ("d".toList),
   some ("e".toList), some []⟩

/-- A broken-down local timestamp, modelling the `DateTime<Local>` values
chrono derives from filesystem metadata; `weekday` and `month` are indices
into the English name tables below. -/
structure LocalDT where
  weekday : Nat
  day : Nat
  month : Nat
  year : Nat
  hour : Nat
  minute : Nat
  second : Nat
deriving DecidableEq

/-- Creation and modification timestamps of one file. -/
structure FileMeta where
  created : LocalDT
  modified : LocalDT
deriving DecidableEq

/-- English weekday names, as chrono's `%A` prints with its default English
locale. -/
def weekdayNames : List Str :=
  [("Monday".toList), ("Tuesday".toList), ("Wednesday".toList),
   ("Thursday".toList), ("Friday".toList), ("Saturday".toList),
   ("Sunday".toList)]

/-- English month names (index 0 is January), as chrono's `%B` prints. -/
def monthNames : List Str :=
  [("January".toList), ("February".toList), ("March".toList),
   ("April".toList), ("May".toList), ("June".toList), ("July".toList),
   ("August".toList), ("September".toList), ("October".toList),
   ("November".toList), ("December".toList)]

/-- Decimal rendering of a natural number. -/
def natToStr (n : Nat) : Str := (Nat.repr n).toList

/-- Left-pad with zeros to the given width, as chrono's numeric specifiers
do. -/
def padZero (w : Nat) (s : Str) : Str := List.replicate (w - s.length) '0' ++ s

/-- chrono's `format("%A %d %B %Y")`: full weekday name, zero-padded day,
full month name, year. -/
def fmtDateLong (d : LocalDT) : Str :=
  (weekdayNames.getD d.weekday []) ++ [' '] ++ padZero 2 (natToStr d.day) ++
    [' '] ++ (monthNames.getD d.month []) ++ [' '] ++
    padZero 4 (natToStr d.year)

/-- chrono's `format("%A %d %B %Y @ %H:%M:%S")`. -/
def fmtDateTimeLong (d : LocalDT) : Str :=
  fmtDateLong d ++ (" @ ".toList) ++ padZero 2 (natToStr d.hour) ++ [':'] ++
    padZero 2 (natToStr d.minute) ++ [':'] ++ padZero 2 (natToStr d.second)

/-- The ambient effects `fill_template` performs: the process working
directory, the `fs::metadata` oracle (keyed by the path handed to the
syscall, resolved against the working directory), and the current year as
`Local::now().format("%Y")` renders it. -/
structure Env where
  cwd : FsPath
  meta : FsPath → Option FileMeta
  nowYear : Str

/-- `fill_template` of src/main.rs.  The path is joined onto the working
directory and stripped of the project root (`unwrap` panic when the root is
not a prefix); both `fs::metadata` calls are then made on that stripped
relative path — not on the original file path — so the oracle is consulted at
the relative path resolved against the working directory.  The `data`,
`copyright_notice` and root-basename `unwrap`s are eager, as in Rust.  The
configured locale is never consulted: the chrono `format` calls print fixed
English names. -/
def fill_template (env : Env) (template : Template) (project : Project)
    (path root : FsPath) : Option (List Str) := do
  let abspath := joinPath env.cwd path
  let rel ← stripBase abspath root
  let fmc ← env.meta (joinPath env.cwd rel)
  let creation_date := fmtDateLong fmc.created
  let fmm ← env.meta (joinPath env.cwd rel)
  let modification_date := fmtDateTimeLong fmm.modified
  let year := env.nowYear
  let data ← project.data
  let notice ← template.copyright_notice
  let baseName ← project.root.comps.getLast?
  let res0 := strReplace (template.template.getD [])
    ("#copyright_notice".toList) notice
  let res1 := strReplace res0 ("#file_creation".toList) creation_date
  let res2 := strReplace res1 ("#date_now".toList) modification_date
  let res3 := strReplace res2 ("#file_relative_path".toList)
    (strJoin ("/".toList) rel.comps)
  let res4 := strReplace res3 ("#project_name".toList)
    (project.name.getD baseName)
  let res5 := strReplace res4 ("#author_name".toList) (data.author.getD [])
  let res6 := strReplace res5 ("#cp_year".toList) year
  let res7 :=
    if (data.author_mail.map (fun f => !f.isEmpty)).getD false then
      strReplace res6 ("#author_mail".toList)
        (['<'] ++ data.author_mail.getD [] ++ ['>'])
    else strReplace res6 ("#author_mail".toList) []
  let res8 :=
    if (data.cp_holders.map (fun f => !f.isEmpty)).getD false then
      strReplace res7 ("#cp_holders".toList)
        (['<'] ++ data.cp_holders.getD [] ++ ['>'])
    else strReplace res7 ("#cp_holders".toList) []
  let pfxStr := template.pfx.getD []
  some ((template.before.getD []) ++
        (strSplitChar '\n' res8).map (fun s => pfxStr ++ s) ++
        (template.after.getD []))

/-- Timestamp rendering as "Monday 05 August 2002". -/
def dtAW : LocalDT := ⟨0, 5, 7, 2002, 1, 2, 3⟩

/-- Metadata carrying `dtAW` for both timestamps. -/
def fmAW : FileMeta := ⟨dtAW, dtAW⟩

/-- Timestamp rendering as "Monday 05 August 2001". -/
def dtBW : LocalDT := ⟨0, 5, 7, 2001, 1, 2, 3⟩

/-- Metadata carrying `dtBW` for both timestamps. -/
def fmBW : FileMeta := ⟨dtBW, dtBW⟩

/-- The project root `/p`. -/
def root6W : FsPath := ⟨true, ["p".toList]⟩

/-- The target file `/p/f.rs`. -/
def path6W : FsPath := ⟨true, ["p".toList, "f.rs".toList]⟩

/-- A working directory `/h` different from the project root. -/
def cwd6W : FsPath := ⟨true, ["h".toList]⟩

/-- The path the metadata syscall actually resolves: the stripped relative
path `f.rs` joined onto the working directory, giving `/h/f.rs`. -/
def metaPath6W : FsPath := ⟨true, ["h".toList, "f.rs".toList]⟩

/-- A filesystem in which the target file `/p/f.rs` and the file `/h/f.rs`
carry different timestamps. -/
def env6W : Env :=
  ⟨cwd6W,
   fun q => if q = metaPath6W then some fmAW
            else if q = path6W then some fmBW else none,
   "2003".toList⟩

/-- Identity data with all three fields present but empty. -/
def data6W : ConfigData := ⟨some [], some [], some []⟩

/-- A project at `/p` with full identity data. -/
def prj6W : Project :=
  ⟨root6W, some ("P".toList), none, none, some ("en".toList), some data6W⟩

/-- A template whose body is exactly the creation-date token. -/
def tpl6W : Template :=
  ⟨"rs".toList, none, none, none, some ("#file_creation".toList), some [],
   none⟩

/-- A template with a before-line containing an embedded line break. -/
def tpl8W : Template :=
  ⟨"rs".toList, none, some [("a\nb".toList)], none, none, some [], none⟩

/-- The absolute filesystem root, used as working directory in concrete
instances. -/
def cwdRootW : FsPath := ⟨true, []⟩

/-- A project whose configured root happens to equal a full file path. -/
def prj5W : Project :=
  ⟨⟨true, ["a".toList, "f.rs".toList]⟩, none, none, none, none, none⟩

/-- A configuration holding only `prj5W`. -/
def cfg5W : Config :=
  ⟨false, false, false, "en".toList, cdEmptyW, tplEmptyW, none, some [prj5W]⟩

/-- The file path equal to `prj5W`'s root. -/
def path5W : FsPath := ⟨true, ["a".toList, "f.rs".toList]⟩

/-- A project rooted at the directory `/a`. -/
def prjAW : Project := ⟨⟨true, ["a".toList]⟩, none, none, none, none, none⟩

/-- A configuration holding only `prjAW`. -/
def cfgAW : Config :=
  ⟨false, false, false, "en".toList, cdEmptyW, tplEmptyW, none, some [prjAW]⟩

/-- A file path nested two levels below `prjAW`'s root. -/
def pathAW : FsPath := ⟨true, ["a".toList, "b".toList, "f.rs".toList]⟩

/-- A global configuration with creation and update both disabled. -/
def cfg2W : Config :=
  ⟨false, false, false, "en".toList, cdEmptyW, tplEmptyW, none, none⟩

/-- A project that overrides `update` to true. -/
def prj2W : Project :=
  ⟨⟨true, ["a".toList]⟩, none, none, some true, none, none⟩

/-- The tracked-line test shared by `check_header_exists` and `update_header`
in src/main.rs: the rendered line, with every occurrence of the template's
prefix removed (Rust `str::replace`), starts with one of the tracked
prefixes. -/
def trackedLine (template : Template) (line : Str) : Bool :=
  (template.track_changes.getD []).any
    (fun t => t.isPrefixOf (strReplace line (template.pfx.getD []) []))

/-- `check_header_exists` of src/main.rs, with the file's full text passed in
place of the path-plus-read: split the content on line breaks; report absent
when the file has fewer lines than the header; otherwise every line pair must
be identical, or have a rendered line containing "Creation date", or have a
tracked rendered line. -/
def check_header_exists (content : Str) (header : List Str)
    (template : Template) : Bool :=
  let lines := strSplitChar '\n' content
  if lines.length < header.length then false
  else
    (lines.zip header).all (fun p =>
      p.1 == p.2 || strContains p.2 ("Creation date".toList) ||
        trackedLine template p.2)

/-- The `enumerate().for_each` loop of `update_header`: each tracked rendered
line is written over the file line at the same index, in header order. -/
def applyUpdates (template : Template) :
    Nat → List Str → List Str → List Str
  | _, [], lines => lines
  | i, h :: rest, lines =>
      applyUpdates template (i + 1) rest
        (if trackedLine template h then lines.set i h else lines)

/-- Whether every tracked header index is within the file's line count.  The
Rust loop body `content[i] = h` panics on the first tracked index that is out
of bounds, and the file — written only after the loop — is then left
untouched, so the guarded form below is result-equivalent. -/
def updateInBounds (template : Template) : Nat → List Str → Nat → Bool
  | _, [], _ => true
  | i, h :: rest, len =>
      (!(trackedLine template h) || decide (i < len)) &&
        updateInBounds template (i + 1) rest len

/-- `update_header` of src/main.rs: split the content on line breaks,
overwrite the tracked positions with the new rendered lines, and join the
full line set back; `none` models the out-of-bounds indexing panic. -/
def update_header (content : Str) (header : List Str) (template : Template) :
    Option Str :=
  let lines := strSplitChar '\n' content
  if updateInBounds template 0 header lines.length then
    some (strJoin ("\n".toList) (applyUpdates template 0 header lines))
  else none

/-- `write_header` of src/main.rs: the rendered header joined with line
breaks plus a trailing newline, prepended to the file's previous content. -/
def write_header (header : List Str) (content : Str) : Str :=
  strJoin ("\n".toList) header ++ ("\n".toList) ++ content

/-- A template tracking lines that start with "A" after the "// " prefix is
removed. -/
def tpl7W : Template :=
  ⟨"rs".toList, some ("// ".toList), none, none, none, none,
   some [("A".toList)]⟩

/-- A file whose tracked first line differs from the new header. -/
def content7W : Str := "// A: 1\nbody".toList

/-- A one-line rendered header whose line is tracked. -/
def header7W : List Str := [("// A: 2".toList)]

/-- The update outcome: the tracked line replaced, the rest untouched. -/
def out7W : Str := "// A: 2\nbody".toList

/-- A template whose tracked-prefix list contains the empty string, so every
header line is tracked. -/
def tplTrackAllW : Template :=
  ⟨"rs".toList, none, none, none, none, none, some [([] : Str)]⟩

/-- Claim C3 counterexample: merging a fully-populated specific identity
record against a fallback with absent fields does not return the specific
values — it panics (`none`), because Rust's `unwrap_or` evaluates
`default.field.clone().unwrap()` eagerly. -/
theorem claim_C3_counterexample :
    ConfigData.merge cdFullW cdEmptyW = none ∧
    ConfigData.merge cdFullW cdEmptyW ≠ some cdFullW := by
  decide

/-- Claim C4 counterexample: the template merge fails although no field is
absent in both records — every field of the specific template is present, yet
merging against a fully-absent fallback panics. -/
theorem claim_C4_counterexample :
    tplFullW.pfx.isSome = true ∧ tplFullW.before.isSome = true ∧
    tplFullW.after.isSome = true ∧ tplFullW.template.isSome = true ∧
    tplFullW.copyright_notice.isSome = true ∧
    tplFullW.track_changes.isSome = true ∧
    Template.merge tplFullW tplEmptyW = none := by
  decide

/-- Claim C3 (amended): whenever a merge succeeds, each merged field equals
the specific value when present and the fallback value otherwise (template
name always kept from the specific record); and merging a fully-populated
specific record against a fully-populated fallback returns the specific record
unchanged. -/
theorem claim_C3_amended :
    (∀ s d r : ConfigData, ConfigData.merge s d = some r →
      (s.author.isSome = true → r.author = s.author) ∧
      (s.author = none → r.author = d.author) ∧
      (s.author_mail.isSome = true → r.author_mail = s.author_mail) ∧
      (s.author_mail = none → r.author_mail = d.author_mail) ∧
      (s.cp_holders.isSome = true → r.cp_holders = s.cp_holders) ∧
      (s.cp_holders = none → r.cp_holders = d.cp_holders)) ∧
    (∀ s d : ConfigData,
      (s.author.isSome && s.author_mail.isSome && s.cp_holders.isSome &&
       d.author.isSome && d.author_mail.isSome && d.cp_holders.isSome) = true →
      ConfigData.merge s d = some s) ∧
    (∀ s d r : Template, Template.merge s d = some r →
      r.name = s.name ∧
      (s.pfx.isSome = true → r.pfx = s.pfx) ∧
      (s.pfx = none → r.pfx = d.pfx) ∧
      (s.before.isSome = true → r.before = s.before) ∧
      (s.before = none → r.before = d.before) ∧
      (s.after.isSome = true → r.after = s.after) ∧
      (s.after = none → r.after = d.after) ∧
      (s.template.isSome = true → r.template = s.template) ∧
      (s.template = none → r.template = d.template) ∧
      (s.copyright_notice.isSome = true →
        r.copyright_notice = s.copyright_notice) ∧
      (s.copyright_notice = none → r.copyright_notice = d.copyright_notice) ∧
      (s.track_changes.isSome = true → r.track_changes = s.track_changes) ∧
      (s.track_changes = none → r.track_changes = d.track_changes)) ∧
    (∀ s d : Template,
      (s.pfx.isSome && s.before.isSome && s.after.isSome &&
       s.template.isSome && s.copyright_notice.isSome &&
       s.track_changes.isSome && d.pfx.isSome && d.before.isSome &&
       d.after.isSome && d.template.isSome && d.copyright_notice.isSome &&
       d.track_changes.isSome) = true →
      Template.merge s d = some s) := by
  refine ⟨?_, ?_, ?_, ?_⟩
  · intro s d r h
    obtain ⟨sa, sm, sh⟩ := s
    obtain ⟨da, dm, dh⟩ := d
    cases da <;> cases dm <;> cases dh <;>
      simp only [ConfigData.merge, Option.some.injEq, reduceCtorEq] at h
    subst h
    cases sa <;> cases sm <;> cases sh <;> simp [Option.getD]
  · intro s d h
    obtain ⟨sa, sm, sh⟩ := s
    obtain ⟨da, dm, dh⟩ := d
    cases sa <;> cases sm <;> cases sh <;> cases da <;> cases dm <;>
      cases dh <;> simp_all [ConfigData.merge, Option.getD]
  · intro s d r h
    obtain ⟨sn, sp, sb, sa, st, sc, str⟩ := s
    obtain ⟨dn, dp, db, da, dt, dc, dtr⟩ := d
    cases dp <;> cases db <;> cases da <;> cases dt <;> cases dc <;>
      cases dtr <;>
      simp only [Template.merge, Option.some.injEq, reduceCtorEq] at h
    subst h
    cases sp <;> cases sb <;> cases sa <;> cases st <;> cases sc <;>
      cases str <;> simp [Option.getD]
  · intro s d h
    obtain ⟨sn, sp, sb, sa, st, sc, str⟩ := s
    obtain ⟨dn, dp, db, da, dt, dc, dtr⟩ := d
    cases sp <;> cases sb <;> cases sa <;> cases st <;> cases sc <;>
      cases str <;> simp_all
    cases dp <;> cases db <;> cases da <;> cases dt <;> cases dc <;>
      cases dtr <;> simp_all [Template.merge, Option.getD]

/-- Claim C3 witness: the amended idempotence clause at fully-populated
concrete records. -/
theorem claim_C3_witness : ConfigData.merge cdFullW cdFallbackW = some cdFullW :=
  claim_C3_amended.2.1 cdFullW cdFallbackW (by decide)

/-- Claim C4 (amended): the merges fail exactly when some merged field is
absent in the fallback record, regardless of the specific record (the failure
is a runtime `unwrap` panic, modelled as `none`, not a checked error value);
whenever every fallback field is present, the merge succeeds. -/
theorem claim_C4_amended :
    (∀ s d : ConfigData, (ConfigData.merge s d).isSome = true ↔
      (d.author.isSome = true ∧ d.author_mail.isSome = true ∧
       d.cp_holders.isSome = true)) ∧
    (∀ s d : Template, (Template.merge s d).isSome = true ↔
      (d.pfx.isSome = true ∧ d.before.isSome = true ∧ d.after.isSome = true ∧
       d.template.isSome = true ∧ d.copyright_notice.isSome = true ∧
       d.track_changes.isSome = true)) := by
  constructor
  · intro s d
    obtain ⟨da, dm, dh⟩ := d
    cases da <;> cases dm <;> cases dh <;> simp [ConfigData.merge]
  · intro s d
    obtain ⟨dn, dp, db, da, dt, dc, dtr⟩ := d
    cases dp <;> cases db <;> cases da <;> cases dt <;> cases dc <;>
      cases dtr <;> simp [Template.merge]

theorem findSomeNoneAux {α β : Type} (f : α → Option β) :
    ∀ l : List α, (∀ x ∈ l, f x = none) → l.findSome? f = none := by
  intro l h
  induction l with
  | nil => rfl
  | cons a t ih =>
    have ha := h a (by simp)
    simp only [List.findSome?, ha]
    exact ih (fun x hx => h x (by simp [hx]))

theorem findSomeUniqueAux {α β : Type} (f : α → Option β) (x : α) (v : β) :
    ∀ l : List α, x ∈ l → f x = some v → (∀ y ∈ l, y ≠ x → f y = none) →
      l.findSome? f = some v := by
  intro l
  induction l with
  | nil => intro h; cases h
  | cons a t ih =>
    intro hmem hfx hothers
    by_cases hax : a = x
    · subst hax; simp [List.findSome?, hfx]
    · have ha : f a = none := hothers a (by simp) hax
      simp only [List.findSome?, ha]
      have hxt : x ∈ t := by
        rcases List.mem_cons.mp hmem with h | h
        · exact absurd h.symm hax
        · exact h
      exact ih hxt hfx (fun y hy hyx => hothers y (by simp [hy]) hyx)

theorem findUniqueAux {α : Type} (p : α → Bool) (x : α) :
    ∀ l : List α, x ∈ l → p x = true → (∀ y ∈ l, y ≠ x → p y = false) →
      l.find? p = some x := by
  intro l
  induction l with
  | nil => intro h; cases h
  | cons a t ih =>
    intro hmem hpx hothers
    by_cases hax : a = x
    · subst hax; simp [List.find?, hpx]
    · have ha : p a = false := hothers a (by simp) hax
      simp only [List.find?, ha]
      have hxt : x ∈ t := by
        rcases List.mem_cons.mp hmem with h | h
        · exact absurd h.symm hax
        · exact h
      exact ih hxt hpx (fun y hy hyx => hothers y (by simp [hy]) hyx)

theorem mem_ancestorPaths_iff (p cand : FsPath) :
    cand ∈ ancestorPaths p ↔
      (cand.absolute = p.absolute ∧ cand.comps <+: p.comps) := by
  unfold ancestorPaths
  simp only [List.mem_map, List.mem_reverse, List.mem_inits]
  constructor
  · rintro ⟨l, hl, rfl⟩
    exact ⟨rfl, hl⟩
  · rintro ⟨habs, hpre⟩
    refine ⟨cand.comps, hpre, ?_⟩
    cases cand
    simp_all

/-- Claim C5 counterexample: the real walk starts at the joined file path
itself, not at its containing directory.  With a project whose root equals
the full file path, `find_project` returns that project while the claimed
algorithm (starting at the containing directory) finds nothing. -/
theorem claim_C5_counterexample :
    find_project cwdRootW cfg5W path5W = some prj5W ∧
    find_project_claim cwdRootW cfg5W path5W = none := by
  decide

/-- Claim C5 (amended): `find_project` starts at the file path itself (so a
project root equal to the full file path is also matched) and tests each
successive ancestor for exact path equality with a configured project root;
it returns none when the project list is empty or when no ancestor-or-self
matches; and for a path strictly inside exactly one configured project's
subtree it returns that project at any nesting depth. -/
theorem claim_C5_amended :
    (∀ cwd cfg path, cfg.project.getD [] = [] →
      find_project cwd cfg path = none) ∧
    (∀ cwd cfg path,
      (∀ q ∈ cfg.project.getD [],
        ¬(q.root.absolute = (joinPath cwd path).absolute ∧
          q.root.comps <+: (joinPath cwd path).comps)) →
      find_project cwd cfg path = none) ∧
    (∀ cwd cfg path pr, pr ∈ cfg.project.getD [] →
      pr.root.absolute = (joinPath cwd path).absolute →
      pr.root.comps <+: (joinPath cwd path).comps →
      pr.root.comps ≠ (joinPath cwd path).comps →
      (∀ q ∈ cfg.project.getD [], q ≠ pr →
        ¬(q.root.absolute = (joinPath cwd path).absolute ∧
          q.root.comps <+: (joinPath cwd path).comps)) →
      find_project cwd cfg path = some pr) := by
  refine ⟨?_, ?_, ?_⟩
  · intro cwd cfg path h
    simp [find_project, h]
  · intro cwd cfg path h
    by_cases hemp : (cfg.project.getD []).isEmpty = true
    · simp [find_project, hemp]
    · simp only [find_project, hemp, Bool.false_eq_true, if_false]
      apply findSomeNoneAux
      intro cand hcand
      apply List.find?_eq_none.mpr
      intro q hq
      simp only [beq_iff_eq]
      intro hroot
      rw [mem_ancestorPaths_iff] at hcand
      exact h q hq ⟨hroot ▸ hcand.1, hroot ▸ hcand.2⟩
  · intro cwd cfg path pr hmem habs hpre hne hothers
    have hemp : (cfg.project.getD []).isEmpty = false := by
      cases hl : cfg.project.getD [] with
      | nil => rw [hl] at hmem; cases hmem
      | cons a t => simp
    simp only [find_project, hemp, Bool.false_eq_true, if_false]
    apply findSomeUniqueAux _ pr.root pr
    · rw [mem_ancestorPaths_iff]
      exact ⟨habs, hpre⟩
    · apply findUniqueAux _ pr _ hmem (by simp)
      intro y hy hyne
      have hy' := hothers y hy hyne
      by_contra hcon
      simp only [Bool.not_eq_false, beq_iff_eq] at hcon
      exact hy' ⟨hcon ▸ habs, hcon ▸ hpre⟩
    · intro cand hcand hcandne
      apply List.find?_eq_none.mpr
      intro q hq
      simp only [beq_iff_eq]
      intro hroot
      rw [mem_ancestorPaths_iff] at hcand
      by_cases hqpr : q = pr
      · subst hqpr
        exact hcandne (hroot ▸ rfl)
      · exact hothers q hq hqpr ⟨hroot ▸ hcand.1, hroot ▸ hcand.2⟩

/-- Claim C5 witness: the amended subtree clause at a concrete configuration
with one project rooted at `/a` and a file two levels below it. -/
theorem claim_C5_witness : find_project cwdRootW cfgAW pathAW = some prjAW :=
  claim_C5_amended.2.2 cwdRootW cfgAW pathAW prjAW (by decide) (by decide)
    (by decide) (by decide) (by decide)

/-- Claim C9: `get_language_config` returns the default template when no
language templates are configured; otherwise it returns a configured template
whose name equals the detected language tag if one exists, and when none
matches it falls back to the default template unless strict language matching
is enabled, in which case it signals no applicable configuration. -/
theorem claim_C9 : ∀ (cfg : Config) (lang : Str),
    (cfg.language = none → get_language_config cfg lang = some cfg.default) ∧
    (∀ ts, cfg.language = some ts →
      ((∃ t ∈ ts, t.name = lang) →
        ∃ t ∈ ts, t.name = lang ∧ get_language_config cfg lang = some t) ∧
      ((∀ t ∈ ts, t.name ≠ lang) →
        get_language_config cfg lang =
          if cfg.language_strict then none else some cfg.default)) := by
  intro cfg lang
  constructor
  · intro h
    simp [get_language_config, h]
  · intro ts hts
    constructor
    · intro hex
      match hfound : ts.find? (fun t => t.name == lang) with
      | some t =>
        refine ⟨t, List.mem_of_find?_eq_some hfound, ?_, ?_⟩
        · have ht := List.find?_some hfound
          simpa [beq_iff_eq] using ht
        · simp [get_language_config, hts, hfound]
      | none =>
        obtain ⟨t, htmem, htname⟩ := hex
        have hcon := List.find?_eq_none.mp hfound t htmem
        simp [beq_iff_eq, htname] at hcon
    · intro hall
      have hfound : ts.find? (fun t => t.name == lang) = none := by
        apply List.find?_eq_none.mpr
        intro t ht
        simp only [beq_iff_eq]
        exact hall t ht
      cases hstrict : cfg.language_strict <;>
        simp [get_language_config, hts, hfound, hstrict]

/-- Claim C9 witness: the no-language-templates clause at a concrete
configuration. -/
theorem claim_C9_witness :
    get_language_config cfg5W ("rs".toList) = some cfg5W.default :=
  (claim_C9 cfg5W ("rs".toList)).1 rfl

/-- Claim C2 divergence: with global create and update both false and a
project override `update = Some(true)`, the invocation passes the early
guard (the resolved update flag is true), the header is present, and the
claimed decision table says the program patches tracked lines — but `main`
tests the global `config.update`, so it reports nothing to do. -/
theorem claim_C2_divergence :
    prj2W.create.getD cfg2W.create = false ∧
    prj2W.update.getD cfg2W.update = true ∧
    main_decision cfg2W (some prj2W) true = MainAction.nothingToDo := by
  decide

/-- Claim C6 counterexample: the target file `/p/f.rs` has metadata `fmBW`
(a 2001 creation date), yet the rendered header carries the 2002 date of
`/h/f.rs` — the metadata of the stripped relative path resolved against the
working directory, not of the target file itself. -/
theorem claim_C6_counterexample :
    env6W.meta path6W = some fmBW ∧
    fmtDateLong fmBW.created = ("Monday 05 August 2001".toList) ∧
    fill_template env6W tpl6W prj6W path6W root6W =
      some [("Monday 05 August 2002".toList)] := by
  decide

/-- Claim C6 (amended): rendering fails when the joined file path is not
inside the project root; the configured locale is never consulted; the
timestamps substituted for the date tokens come from the metadata of the
stripped relative path resolved against the working directory (the output
depends on the metadata oracle only at that path); and the dates are
formatted as weekday day month year, plus "@ hour:minute:second" for the
modification date, with fixed English names. -/
theorem claim_C6_amended :
    (∀ env tpl prj path root, stripBase (joinPath env.cwd path) root = none →
      fill_template env tpl prj path root = none) ∧
    (∀ env tpl prj path root loc,
      fill_template env tpl prj path root =
        fill_template env tpl { prj with locale := loc } path root) ∧
    (∀ (env env' : Env) tpl prj path root,
      env.cwd = env'.cwd → env.nowYear = env'.nowYear →
      (∀ rel, stripBase (joinPath env.cwd path) root = some rel →
        env.meta (joinPath env.cwd rel) = env'.meta (joinPath env.cwd rel)) →
      fill_template env tpl prj path root =
        fill_template env' tpl prj path root) ∧
    (fill_template env6W tpl6W prj6W path6W root6W =
       some [("Monday 05 August 2002".toList)] ∧
     fmtDateTimeLong dtAW = ("Monday 05 August 2002 @ 01:02:03".toList)) := by
  refine ⟨?_, ?_, ?_, by decide⟩
  · intro env tpl prj path root h
    simp [fill_template, h]
  · intro env tpl prj path root loc
    cases prj
    rfl
  · intro env env' tpl prj path root hcwd hyear hmeta
    obtain ⟨cwd, metaf, ny⟩ := env
    obtain ⟨cwd', metaf', ny'⟩ := env'
    simp only at hcwd hyear hmeta
    subst hcwd
    subst hyear
    cases hs : stripBase (joinPath cwd path) root with
    | none => simp [fill_template, hs]
    | some rel =>
      have hm := hmeta rel hs
      simp only at hm
      simp [fill_template, hs, hm]

/-- Claim C6 witness: the amended failure clause at a file path outside the
project root. -/
theorem claim_C6_witness :
    fill_template env6W tpl6W prj6W (FsPath.mk true ["q".toList]) root6W =
      none :=
  claim_C6_amended.1 env6W tpl6W prj6W ⟨true, ["q".toList]⟩ root6W (by decide)

theorem zipAllIffAux {α : Type} (d : α) (f : α × α → Bool) :
    ∀ xs ys : List α, ((xs.zip ys).all f = true ↔
      ∀ i, i < min xs.length ys.length →
        f (xs.getD i d, ys.getD i d) = true) := by
  intro xs
  induction xs with
  | nil =>
    intro ys
    constructor
    · intro _ i hi
      simp at hi
    · intro _
      simp
  | cons x xt ih =>
    intro ys
    cases ys with
    | nil =>
      constructor
      · intro _ i hi
        simp at hi
      · intro _
        simp
    | cons y yt =>
      simp only [List.zip_cons_cons, List.all_cons, Bool.and_eq_true, ih yt]
      constructor
      · rintro ⟨hp, hrest⟩ i hi
        cases i with
        | zero => simpa using hp
        | succ j =>
          have hj : j < min xt.length yt.length := by
            simp only [List.length_cons] at hi
            omega
          simpa using hrest j hj
      · intro h
        constructor
        · simpa using h 0 (by simp only [List.length_cons]; omega)
        · intro j hj
          have := h (j + 1) (by simp only [List.length_cons]; omega)
          simpa using this

theorem check_header_exists_iff (content : Str) (header : List Str)
    (tpl : Template) :
    check_header_exists content header tpl = true ↔
      (header.length ≤ (strSplitChar '\n' content).length ∧
       ∀ i, i < header.length →
         ((strSplitChar '\n' content).getD i [] = header.getD i [] ∨
          strContains (header.getD i []) ("Creation date".toList) = true ∨
          trackedLine tpl (header.getD i []) = true)) := by
  unfold check_header_exists
  by_cases hlen : (strSplitChar '\n' content).length < header.length
  · simp only [hlen, if_true]
    constructor
    · intro h
      cases h
    · intro h
      omega
  · have hle : header.length ≤ (strSplitChar '\n' content).length := by omega
    simp only [hlen, if_false]
    rw [zipAllIffAux ([] : Str)
      (fun p => p.1 == p.2 || strContains p.2 ("Creation date".toList) ||
        trackedLine tpl p.2)]
    have hmin : min (strSplitChar '\n' content).length header.length =
        header.length := by omega
    rw [hmin]
    constructor
    · intro h
      refine ⟨hle, ?_⟩
      intro i hi
      have := h i hi
      simp only [Bool.or_eq_true, beq_iff_eq] at this
      tauto
    · intro h i hi
      have := h.2 i hi
      simp only [Bool.or_eq_true, beq_iff_eq]
      tauto

/-- Claim C1: `check_header_exists` returns false whenever the file has fewer
lines than the rendered header; otherwise it returns true exactly when each
of the first header-length line pairs has identical lines, or a rendered line
containing "Creation date", or a rendered line that — with every occurrence
of the template's prefix removed — starts with one of the tracked
prefixes. -/
theorem claim_C1 : ∀ (content : Str) (header : List Str) (tpl : Template),
    check_header_exists content header tpl = true ↔
      (header.length ≤ (strSplitChar '\n' content).length ∧
       ∀ i, i < header.length →
         ((strSplitChar '\n' content).getD i [] = header.getD i [] ∨
          strContains (header.getD i []) ("Creation date".toList) = true ∨
          ∃ t ∈ tpl.track_changes.getD [],
            t.isPrefixOf
              (strReplace (header.getD i []) (tpl.pfx.getD []) []) = true)) := by
  intro content header tpl
  rw [check_header_exists_iff]
  simp only [trackedLine, List.any_eq_true]

/-- Claim C1 witness: the characterization applied backwards at a one-line
file equal to a one-line header. -/
theorem claim_C1_witness :
    check_header_exists ("x".toList) [("x".toList)] tplEmptyW = true :=
  (claim_C1 ("x".toList) [("x".toList)] tplEmptyW).mpr (by decide)

theorem getD_set_self {α : Type} (d a : α) :
    ∀ (l : List α) (n : Nat), n < l.length → (l.set n a).getD n d = a := by
  intro l
  induction l with
  | nil =>
    intro n h
    simp at h
  | cons x t ih =>
    intro n h
    cases n with
    | zero => rfl
    | succ m =>
      simp only [List.set_cons_succ, List.getD_cons_succ]
      exact ih m (by simpa using h)

theorem getD_set_ne {α : Type} (d a : α) :
    ∀ (l : List α) (n m : Nat), n ≠ m → (l.set n a).getD m d = l.getD m d := by
  intro l
  induction l with
  | nil =>
    intro n m _
    rfl
  | cons x t ih =>
    intro n m hnm
    cases n with
    | zero =>
      cases m with
      | zero => exact absurd rfl hnm
      | succ k => simp [List.getD_cons_succ]
    | succ j =>
      cases m with
      | zero => simp [List.set_cons_succ, List.getD_cons_zero]
      | succ k =>
        simp only [List.set_cons_succ, List.getD_cons_succ]
        exact ih j k (by omega)

theorem applyUpdates_length (tpl : Template) :
    ∀ (hs : List Str) (n : Nat) (ls : List Str),
      (applyUpdates tpl n hs ls).length = ls.length := by
  intro hs
  induction hs with
  | nil =>
    intro n ls
    rfl
  | cons h t ih =>
    intro n ls
    simp only [applyUpdates]
    rw [ih]
    by_cases htr : trackedLine tpl h = true <;> simp [htr]

theorem applyUpdates_getD (tpl : Template) :
    ∀ (hs : List Str) (n : Nat) (ls : List Str) (j : Nat), j < ls.length →
      (applyUpdates tpl n hs ls).getD j [] =
        if n ≤ j ∧ j - n < hs.length ∧
            trackedLine tpl (hs.getD (j - n) []) = true
        then hs.getD (j - n) [] else ls.getD j [] := by
  intro hs
  induction hs with
  | nil =>
    intro n ls j hj
    simp [applyUpdates]
  | cons h t ih =>
    intro n ls j hj
    simp only [applyUpdates]
    by_cases htr : trackedLine tpl h = true
    · rw [if_pos htr]
      rw [ih (n + 1) (ls.set n h) j (by simpa using hj)]
      rcases Nat.lt_trichotomy j n with hlt | heq | hgt
      · have hL : ¬(n + 1 ≤ j ∧ j - (n + 1) < t.length ∧
            trackedLine tpl (t.getD (j - (n + 1)) []) = true) := by
          rintro ⟨hc1, -, -⟩
          omega
        have hR : ¬(n ≤ j ∧ j - n < (h :: t).length ∧
            trackedLine tpl ((h :: t).getD (j - n) []) = true) := by
          rintro ⟨hc1, -, -⟩
          omega
        rw [if_neg hL, if_neg hR]
        exact getD_set_ne [] h ls n j (by omega)
      · subst heq
        have hL : ¬(j + 1 ≤ j ∧ j - (j + 1) < t.length ∧
            trackedLine tpl (t.getD (j - (j + 1)) []) = true) := by
          rintro ⟨hc1, -, -⟩
          omega
        have hR : (j ≤ j ∧ j - j < (h :: t).length ∧
            trackedLine tpl ((h :: t).getD (j - j) []) = true) := by
          refine ⟨Nat.le_refl j, by simp, ?_⟩
          simpa [Nat.sub_self] using htr
        rw [if_neg hL, if_pos hR]
        have hzero : (h :: t).getD (j - j) [] = h := by
          simp [Nat.sub_self]
        rw [hzero]
        exact getD_set_self [] h ls j hj
      · have hsub : j - n = (j - (n + 1)) + 1 := by omega
        by_cases hc : j - (n + 1) < t.length ∧
            trackedLine tpl (t.getD (j - (n + 1)) []) = true
        · have hL : (n + 1 ≤ j ∧ j - (n + 1) < t.length ∧
              trackedLine tpl (t.getD (j - (n + 1)) []) = true) :=
            ⟨by omega, hc.1, hc.2⟩
          have hR : (n ≤ j ∧ j - n < (h :: t).length ∧
              trackedLine tpl ((h :: t).getD (j - n) []) = true) := by
            refine ⟨by omega, by simp only [List.length_cons]; omega, ?_⟩
            rw [hsub, List.getD_cons_succ]
            exact hc.2
          rw [if_pos hL, if_pos hR, hsub, List.getD_cons_succ]
        · have hL : ¬(n + 1 ≤ j ∧ j - (n + 1) < t.length ∧
              trackedLine tpl (t.getD (j - (n + 1)) []) = true) := by
            rintro ⟨-, hc1, hc2⟩
            exact hc ⟨hc1, hc2⟩
          have hR : ¬(n ≤ j ∧ j - n < (h :: t).length ∧
              trackedLine tpl ((h :: t).getD (j - n) []) = true) := by
            rintro ⟨-, hc1, hc2⟩
            rw [hsub, List.getD_cons_succ] at hc2
            refine hc ⟨?_, hc2⟩
            simp only [List.length_cons] at hc1
            omega
          rw [if_neg hL, if_neg hR]
          exact getD_set_ne [] h ls n j (by omega)
    · rw [if_neg htr]
      rw [ih (n + 1) ls j hj]
      rcases Nat.lt_trichotomy j n with hlt | heq | hgt
      · have hL : ¬(n + 1 ≤ j ∧ j - (n + 1) < t.length ∧
            trackedLine tpl (t.getD (j - (n + 1)) []) = true) := by
          rintro ⟨hc1, -, -⟩
          omega
        have hR : ¬(n ≤ j ∧ j - n < (h :: t).length ∧
            trackedLine tpl ((h :: t).getD (j - n) []) = true) := by
          rintro ⟨hc1, -, -⟩
          omega
        rw [if_neg hL, if_neg hR]
      · subst heq
        have hL : ¬(j + 1 ≤ j ∧ j - (j + 1) < t.length ∧
            trackedLine tpl (t.getD (j - (j + 1)) []) = true) := by
          rintro ⟨hc1, -, -⟩
          omega
        have hR : ¬(j ≤ j ∧ j - j < (h :: t).length ∧
            trackedLine tpl ((h :: t).getD (j - j) []) = true) := by
          rintro ⟨-, -, hc2⟩
          rw [Nat.sub_self, List.getD_cons_zero] at hc2
          exact htr hc2
        rw [if_neg hL, if_neg hR]
      · have hsub : j - n = (j - (n + 1)) + 1 := by omega
        by_cases hc : j - (n + 1) < t.length ∧
            trackedLine tpl (t.getD (j - (n + 1)) []) = true
        · have hL : (n + 1 ≤ j ∧ j - (n + 1) < t.length ∧
              trackedLine tpl (t.getD (j - (n + 1)) []) = true) :=
            ⟨by omega, hc.1, hc.2⟩
          have hR : (n ≤ j ∧ j - n < (h :: t).length ∧
              trackedLine tpl ((h :: t).getD (j - n) []) = true) := by
            refine ⟨by omega, by simp only [List.length_cons]; omega, ?_⟩
            rw [hsub, List.getD_cons_succ]
            exact hc.2
          rw [if_pos hL, if_pos hR, hsub, List.getD_cons_succ]
        · have hL : ¬(n + 1 ≤ j ∧ j - (n + 1) < t.length ∧
              trackedLine tpl (t.getD (j - (n + 1)) []) = true) := by
            rintro ⟨-, hc1, hc2⟩
            exact hc ⟨hc1, hc2⟩
          have hR : ¬(n ≤ j ∧ j - n < (h :: t).length ∧
              trackedLine tpl ((h :: t).getD (j - n) []) = true) := by
            rintro ⟨-, hc1, hc2⟩
            rw [hsub, List.getD_cons_succ] at hc2
            refine hc ⟨?_, hc2⟩
            simp only [List.length_cons] at hc1
            omega
          rw [if_neg hL, if_neg hR]

theorem updateInBounds_iff (tpl : Template) :
    ∀ (hs : List Str) (n : Nat) (len : Nat),
      updateInBounds tpl n hs len = true ↔
        ∀ j, j < hs.length → trackedLine tpl (hs.getD j []) = true →
          n + j < len := by
  intro hs
  induction hs with
  | nil =>
    intro n len
    simp [updateInBounds]
  | cons h t ih =>
    intro n len
    simp only [updateInBounds, Bool.and_eq_true, Bool.or_eq_true,
      Bool.not_eq_true', ih, decide_eq_true_eq]
    constructor
    · rintro ⟨hh, hrest⟩ j hj htr
      cases j with
      | zero =>
        rw [List.getD_cons_zero] at htr
        rcases hh with hfalse | hlt
        · rw [htr] at hfalse
          cases hfalse
        · omega
      | succ k =>
        rw [List.getD_cons_succ] at htr
        have := hrest k (by simpa using hj) htr
        omega
    · intro hall
      constructor
      · by_cases htr : trackedLine tpl h = true
        · right
          have := hall 0 (by simp) (by simpa using htr)
          omega
        · left
          simpa using htr
      · intro k hk htrk
        have := hall (k + 1) (by simp only [List.length_cons]; omega)
          (by simpa using htrk)
        omega

theorem check_header_exists_length_le (content : Str) (header : List Str)
    (tpl : Template) (h : check_header_exists content header tpl = true) :
    header.length ≤ (strSplitChar '\n' content).length := by
  unfold check_header_exists at h
  by_cases hlen : (strSplitChar '\n' content).length < header.length
  · rw [if_pos hlen] at h
    cases h
  · omega

/-- Claim C10: whenever the file's line count is at least the header length —
in particular whenever `check_header_exists` has just returned true — every
index `update_header` overwrites is in bounds and the update succeeds; and
the bound is a genuine precondition: on a shorter file with a tracked header
line at an out-of-range index, the positional overwrite panics. -/
theorem claim_C10 :
    (∀ (content : Str) (header : List Str) (tpl : Template),
      header.length ≤ (strSplitChar '\n' content).length →
      (update_header content header tpl).isSome = true) ∧
    (∀ (content : Str) (header : List Str) (tpl : Template),
      check_header_exists content header tpl = true →
      (update_header content header tpl).isSome = true) ∧
    update_header ("x".toList) [("a".toList), ("b".toList)] tplTrackAllW =
      none := by
  have hmain : ∀ (content : Str) (header : List Str) (tpl : Template),
      header.length ≤ (strSplitChar '\n' content).length →
      (update_header content header tpl).isSome = true := by
    intro content header tpl hle
    unfold update_header
    have hg : updateInBounds tpl 0 header
        (strSplitChar '\n' content).length = true := by
      rw [updateInBounds_iff]
      intro j hj _
      omega
    rw [if_pos hg]
    rfl
  refine ⟨hmain, ?_, by decide⟩
  intro content header tpl hc
  exact hmain content header tpl (check_header_exists_length_le _ _ _ hc)

/-- Claim C10 witness: the in-bounds clause at a two-line file and a one-line
header. -/
theorem claim_C10_witness :
    (update_header ("a\nb".toList) [("x".toList)] tplEmptyW).isSome = true :=
  claim_C10.1 ("a\nb".toList) [("x".toList)] tplEmptyW (by decide)

/-- Claim C7: a successful `update_header` writes back a line set of
unchanged length in which exactly the indices whose rendered header line is
tracked are overwritten with the new rendered line, every other line being
identical to the original. -/
theorem claim_C7 : ∀ (content : Str) (header : List Str) (tpl : Template)
    (out : Str), update_header content header tpl = some out →
    ∃ newLines : List Str,
      out = strJoin ("\n".toList) newLines ∧
      newLines.length = (strSplitChar '\n' content).length ∧
      (∀ i, i < newLines.length →
        ¬(i < header.length ∧ trackedLine tpl (header.getD i []) = true) →
        newLines.getD i [] = (strSplitChar '\n' content).getD i []) ∧
      (∀ i, i < header.length → trackedLine tpl (header.getD i []) = true →
        i < newLines.length ∧ newLines.getD i [] = header.getD i []) := by
  intro content header tpl out h
  unfold update_header at h
  by_cases hg : updateInBounds tpl 0 header
      (strSplitChar '\n' content).length = true
  · rw [if_pos hg] at h
    have hout : out =
        strJoin ("\n".toList)
          (applyUpdates tpl 0 header (strSplitChar '\n' content)) := by
      exact (Option.some.inj h).symm
    refine ⟨applyUpdates tpl 0 header (strSplitChar '\n' content), hout,
      applyUpdates_length tpl header 0 _, ?_, ?_⟩
    · intro i hi hnot
      rw [applyUpdates_length] at hi
      rw [applyUpdates_getD tpl header 0 _ i hi]
      rw [if_neg]
      intro hcon
      exact hnot ⟨by omega, by simpa using hcon.2.2⟩
    · intro i hi htr
      have hb : i < (strSplitChar '\n' content).length := by
        have := (updateInBounds_iff tpl header 0 _).mp hg i hi htr
        omega
      constructor
      · rw [applyUpdates_length]
        exact hb
      · rw [applyUpdates_getD tpl header 0 _ i hb]
        rw [if_pos ⟨by omega, by simpa using hi, by simpa using htr⟩]
        simp
  · rw [if_neg hg] at h
    cases h

/-- Claim C7 witness: a concrete successful update in which the tracked first
line is replaced and the second line is untouched. -/
theorem claim_C7_witness :
    ∃ newLines : List Str,
      out7W = strJoin ("\n".toList) newLines ∧
      newLines.length = (strSplitChar '\n' content7W).length ∧
      (∀ i, i < newLines.length →
        ¬(i < header7W.length ∧
          trackedLine tpl7W (header7W.getD i []) = true) →
        newLines.getD i [] = (strSplitChar '\n' content7W).getD i []) ∧
      (∀ i, i < header7W.length →
        trackedLine tpl7W (header7W.getD i []) = true →
        i < newLines.length ∧ newLines.getD i [] = header7W.getD i []) :=
  claim_C7 content7W header7W tpl7W out7W (by decide)

theorem splitChar_append_cons (c : Char) :
    ∀ (a b : Str), c ∉ a →
      strSplitChar c (a ++ c :: b) = a :: strSplitChar c b := by
  intro a
  induction a with
  | nil =>
    intro b _
    simp [strSplitChar]
  | cons x t ih =>
    intro b hc
    have hxc : ¬(x = c) := by
      intro he
      exact hc (by simp [he])
    have hrec := ih b (fun hm => hc (by simp [hm]))
    simp only [List.cons_append, strSplitChar, hxc, if_false, List.append_eq,
      hrec]

theorem splitChar_join_header (c : Char) :
    ∀ (header : List Str) (rest : Str), header ≠ [] →
      (∀ l ∈ header, c ∉ l) →
      strSplitChar c (strJoin [c] header ++ c :: rest) =
        header ++ strSplitChar c rest := by
  intro header
  induction header with
  | nil =>
    intro rest h
    exact absurd rfl h
  | cons x t ih =>
    intro rest _ hall
    cases t with
    | nil =>
      show strSplitChar c (x ++ c :: rest) = [x] ++ strSplitChar c rest
      rw [splitChar_append_cons c x rest (hall x (by simp))]
      rfl
    | cons y ys =>
      have hx : c ∉ x := hall x (by simp)
      show strSplitChar c ((x ++ [c] ++ strJoin [c] (y :: ys)) ++ c :: rest) =
        (x :: y :: ys) ++ strSplitChar c rest
      rw [show (x ++ [c] ++ strJoin [c] (y :: ys)) ++ c :: rest =
        x ++ c :: (strJoin [c] (y :: ys) ++ c :: rest) by simp]
      rw [splitChar_append_cons c x _ hx]
      rw [ih rest (by simp) (fun l hl => hall l (by simp [hl]))]
      rfl

theorem zipSelfAll {α : Type} (f : α × α → Bool) :
    ∀ l : List α, (∀ x ∈ l, f (x, x) = true) → (l.zip l).all f = true := by
  intro l
  induction l with
  | nil =>
    intro _
    rfl
  | cons x t ih =>
    intro h
    simp only [List.zip_cons_cons, List.all_cons, Bool.and_eq_true]
    exact ⟨h x (by simp), ih (fun y hy => h y (by simp [hy]))⟩

/-- Claim C8 counterexample: a template whose before-line contains an
embedded line break renders to a header that `check_header_exists` fails to
find immediately after `write_header` wrote it, because splitting the written
file on line breaks misaligns the comparison. -/
theorem claim_C8_counterexample :
    fill_template env6W tpl8W prj6W path6W root6W =
      some [("a\nb".toList), ([] : Str)] ∧
    check_header_exists
      (write_header [("a\nb".toList), ([] : Str)] ("x".toList))
      [("a\nb".toList), ([] : Str)] tpl8W = false := by
  decide

/-- Claim C8 (amended): provided no rendered header line contains a line
break, `check_header_exists` reports the header present on the file produced
by `write_header`, and the original content is preserved as a suffix of the
written file. -/
theorem claim_C8_amended :
    ∀ (content : Str) (header : List Str) (tpl : Template),
    (∀ l ∈ header, '\n' ∉ l) →
    check_header_exists (write_header header content) header tpl = true ∧
    content <:+ write_header header content := by
  intro content header tpl hnl
  constructor
  · cases header with
    | nil =>
      unfold check_header_exists write_header
      simp
    | cons x t =>
      have hnlstr : ("\n".toList : Str) = ['\n'] := rfl
      unfold check_header_exists write_header
      rw [hnlstr, show strJoin ['\n'] (x :: t) ++ ['\n'] ++ content =
        strJoin ['\n'] (x :: t) ++ '\n' :: content by simp]
      rw [splitChar_join_header '\n' (x :: t) content (by simp) hnl]
      have hlen : ¬(((x :: t) ++ strSplitChar '\n' content).length <
          (x :: t).length) := by
        simp only [List.length_append]
        omega
      rw [if_neg hlen]
      have hzip : ((x :: t) ++ strSplitChar '\n' content).zip (x :: t) =
          (x :: t).zip (x :: t) := by
        conv_lhs => rw [show (x :: t) = (x :: t) ++ ([] : List Str) from
          (List.append_nil _).symm]
        rw [List.zip_append (by simp)]
        simp
      rw [hzip]
      apply zipSelfAll
      intro y _
      simp
  · unfold write_header
    exact List.suffix_append _ _

/-- Claim C8 witness: the amended round trip at a concrete one-line header
and file. -/
theorem claim_C8_witness :
    check_header_exists (write_header [("ax".toList)] ("y".toList))
      [("ax".toList)] tplEmptyW = true ∧
    ("y".toList) <:+ write_header [("ax".toList)] ("y".toList) :=
  claim_C8_amended ("y".toList) [("ax".toList)] tplEmptyW (by decide)

end AutoHeader
